import Mathlib

/-!
Shallow embedding of the PsyNeuLink Scheduler
(src/PsyNeuLink/scheduling/Scheduler.py) together with the parts of its
environment that the scheduler uses: the TimeScale enumeration, the
Condition objects it evaluates, and the external toposort routine used by
the consideration-queue builder.  Mechanisms are opaque node handles with
decidable equality; the mutable dictionaries of the Python object become
function-valued fields of an explicit state record, and the run generator
becomes a fuel-bounded function returning the list of yielded time steps
(each paired with a snapshot of the state at the moment of the yield),
plus the final state when the trial loop terminated within the fuel.
-/

/-- Modelled from the spec: the TimeScale enumeration is imported by the
scheduler from PsyNeuLink.Globals.TimeScale, a module that is not among the
sources; spec section 3 lists the five nested scales coarsest to finest:
LIFE, RUN, TRIAL, PASS, TIME_STEP. -/
inductive TimeScale where
  | LIFE
  | RUN
  | TRIAL
  | PASS
  | TIME_STEP
deriving DecidableEq

/-- The list of all members of the TimeScale enumeration, used to embed the
Python iterations of the form: for ts in TimeScale. -/
def TimeScale.allScales : List TimeScale :=
  [TimeScale.LIFE, TimeScale.RUN, TimeScale.TRIAL, TimeScale.PASS, TimeScale.TIME_STEP]

/-- Modelled from the spec: the Condition classes
(PsyNeuLink.scheduling.condition) are not among the sources.  Spec section
4.2 describes them: Always is always satisfied; AllHaveRun is satisfied once
every node has fired at least once in the current TRIAL; EveryNCalls(dep, n)
is satisfied when counts_useable[dep][owner] is at least n; AtPass(n) reads
the number of passes of the current trial from the Time Registry.  Only the
variants exercised by the claims are modelled. -/
inductive Cond (N : Type) where
  | always : Cond N
  | allHaveRun : Cond N
  | everyNCalls (dep : N) (n : Nat) : Cond N
  | atPass (n : Nat) : Cond N

/-- The mutable state of a Scheduler object: the Time Registry times,
counts_total, counts_useable and the append-only execution_list
(Scheduler.__init__ and Scheduler._init_counts). -/
structure SchedState (N : Type) where
  times : TimeScale → TimeScale → Nat
  counts_total : TimeScale → N → Nat
  counts_useable : N → N → Nat
  execution_list : List (List N)

/-- The immutable data of a Scheduler: its node list, its consideration
queue (list of consideration sets, embedded as lists whose order mirrors
the iteration order of the Python sets) and its condition set.  A node
mapped to none has no explicitly assigned Condition and is defaulted to
Always by _validate_condition_set. -/
structure Config (N : Type) where
  nodes : List N
  consideration_queue : List (List N)
  conditions : N → Option (Cond N)

variable {N : Type} [DecidableEq N]

/-- Scheduler._reset_count: zero one row of a per-scale per-node counter. -/
def reset_count (c : TimeScale → N → Nat) (scale : TimeScale) : TimeScale → N → Nat :=
  fun ts n => if ts = scale then 0 else c ts n

/-- Scheduler._increment_time: for every ts in TimeScale,
times[ts][time_scale] += 1. -/
def increment_time (s : SchedState N) (scale : TimeScale) : SchedState N :=
  { s with times := fun o i => if i = scale then s.times o i + 1 else s.times o i }

/-- Scheduler._reset_time: for every ts in TimeScale,
times[time_scale][ts] = 0. -/
def reset_time (s : SchedState N) (scale : TimeScale) : SchedState N :=
  { s with times := fun o i => if o = scale then 0 else s.times o i }

/-- The effective Condition of a node: _validate_condition_set assigns
Always to every node that has no Condition in the condition set. -/
def condOf (cfg : Config N) (k : N) : Cond N :=
  (cfg.conditions k).getD Cond.always

/-- Modelled from the spec: Condition.is_satisfied of the condition module
(not among the sources), evaluated against the owning scheduler's live
counters.  The owner is the node the condition is attached to; termination
conditions are evaluated without an owner (only owner-free variants are
ever used as termination conditions here). -/
def is_satisfied (cfg : Config N) (s : SchedState N) (owner : Option N) : Cond N → Bool
  | Cond.always => true
  | Cond.allHaveRun =>
      cfg.nodes.all (fun n => decide (1 ≤ s.counts_total TimeScale.TRIAL n))
  | Cond.everyNCalls dep n =>
      match owner with
      | some o => decide (n ≤ s.counts_useable dep o)
      | none => false
  | Cond.atPass n => decide (s.times TimeScale.TRIAL TimeScale.PASS = n)

/-- The per-firing update of Scheduler.run (lines 495 to 504): when
current_node is added to the time step, counts_total[ts][current_node] is
incremented for every ts, then counts_useable[n][current_node] is set to 0
for every n, then counts_useable[current_node][n] is incremented for every
n. -/
def fire_update (s : SchedState N) (k : N) : SchedState N :=
  let cu1 : N → N → Nat := fun a b => if b = k then 0 else s.counts_useable a b
  let cu2 : N → N → Nat := fun a b => if a = k then cu1 a b + 1 else cu1 a b
  { s with
    counts_total := fun ts n => if n = k then s.counts_total ts n + 1 else s.counts_total ts n,
    counts_useable := cu2 }

/-- One full scan of the current consideration set (the for-loop of the
do-while in Scheduler.run): each node not yet in the time step whose
Condition is satisfied is appended to the time step and fires.  The Bool
result is cur_consideration_set_has_changed. -/
def scan_layer (cfg : Config N) : List N → List N → SchedState N → List N × SchedState N × Bool
  | [], exec, s => (exec, s, false)
  | k :: rest, exec, s =>
      if k ∈ exec then scan_layer cfg rest exec s
      else if is_satisfied cfg s (some k) (condOf cfg k) then
        let r := scan_layer cfg rest (exec ++ [k]) (fire_update s k)
        (r.1, r.2.1, true)
      else scan_layer cfg rest exec s

/-- The do-while loop of Scheduler.run: rescan the consideration set until
a scan adds nothing.  Each productive scan adds at least one node of the
layer, so fuel equal to the layer length plus one always reaches the
break. -/
def fix_layer (cfg : Config N) : Nat → List N → List N → SchedState N → List N × SchedState N
  | 0, _, exec, s => (exec, s)
  | fuel + 1, layer, exec, s =>
      let t := scan_layer cfg layer exec s
      if t.2.2 then fix_layer cfg fuel layer t.1 t.2.1 else (t.1, t.2.1)

/-- Processing of one consideration set within a pass (Scheduler.run lines
458 to 516): compute the time step by fixed point, and if it is non-empty
append it to execution_list, yield it (recording the state at the yield
point), and increment TIME_STEP. -/
def process_layer (cfg : Config N) (layer : List N) (s : SchedState N) :
    List (List N × SchedState N) × SchedState N :=
  let fx := fix_layer cfg (layer.length + 1) layer [] s
  if fx.1 = [] then ([], fx.2)
  else
    let s2 := { fx.2 with execution_list := fx.2.execution_list ++ [fx.1] }
    ([(fx.1, s2)], increment_time s2 TimeScale.TIME_STEP)

/-- The layer loop of one pass (the inner while of Scheduler.run): walk the
consideration queue in order while the TRIAL termination condition remains
unsatisfied.  The Bool accumulator is execution_list_has_changed. -/
def pass_layers (cfg : Config N) (tCond : Cond N) :
    List (List N) → SchedState N → Bool → List (List N × SchedState N) × SchedState N × Bool
  | [], s, ch => ([], s, ch)
  | layer :: rest, s, ch =>
      if is_satisfied cfg s none tCond then ([], s, ch)
      else
        let pr := process_layer cfg layer s
        let r := pass_layers cfg tCond rest pr.2 (ch || !pr.1.isEmpty)
        (pr.1 ++ r.1, r.2)

/-- One pass of Scheduler.run (lines 448 to 528): reset the PASS counters
and times, run the layer loop with execution_list_has_changed initialized
to false, and if an entire pass occurred with nothing running append and
yield an empty time step and increment TIME_STEP; finally increment
PASS. -/
def run_pass (cfg : Config N) (tCond : Cond N) (s : SchedState N) :
    List (List N × SchedState N) × SchedState N :=
  let s0 : SchedState N := { s with counts_total := reset_count s.counts_total TimeScale.PASS }
  let s1 := reset_time s0 TimeScale.PASS
  let pl := pass_layers cfg tCond cfg.consideration_queue s1 false
  if pl.2.2 then (pl.1, increment_time pl.2.1 TimeScale.PASS)
  else
    let se := { pl.2.1 with execution_list := pl.2.1.execution_list ++ [([] : List N)] }
    (pl.1 ++ [(([] : List N), se)],
      increment_time (increment_time se TimeScale.TIME_STEP) TimeScale.PASS)

/-- The trial loop of Scheduler.run (lines 447 to 530): while the TRIAL
termination condition is not satisfied, execute one pass; on exit increment
TRIAL.  One unit of fuel is spent per pass; a none final state means the
fuel ran out with the trial loop still running (the generator was not
drained), in which case the yields so far are still reported. -/
def trial_loop (cfg : Config N) (tCond : Cond N) :
    Nat → SchedState N → List (List N × SchedState N) × Option (SchedState N)
  | 0, _ => ([], none)
  | fuel + 1, s =>
      if is_satisfied cfg s none tCond then ([], some (increment_time s TimeScale.TRIAL))
      else
        let pr := run_pass cfg tCond s
        let r := trial_loop cfg tCond fuel pr.2
        (pr.1 ++ r.1, r.2)

/-- The errors run can raise before yielding anything: SchedulerError from
_validate_termination (a supplied termination_conds maps TRIAL to None),
the KeyError of the plain dictionary lookup termination_conds[TimeScale.TRIAL]
when the TRIAL key is absent, and the AttributeError Python would raise
when calling is_satisfied on None (unreachable after validation). -/
inductive RunErr where
  | schedulerError
  | keyError
  | attributeError
deriving DecidableEq

/-- First-match lookup in an association list, embedding Python dictionary
indexing (a missing key is none). -/
def lookupTC [DecidableEq A] : List (A × B) → A → Option B
  | [], _ => none
  | (a, b) :: rest, x => if x = a then some b else lookupTC rest x

/-- Scheduler._validate_termination, for the case of a supplied
termination_conds dictionary: iterate over its entries; an entry mapping
TRIAL to None raises SchedulerError; other None entries and all non-None
entries are accepted. -/
def validate_termination : List (TimeScale × Option (Cond N)) → Except RunErr Unit
  | [] => Except.ok ()
  | (ts, c) :: rest =>
      match c with
      | none =>
          if ts = TimeScale.TRIAL then Except.error RunErr.schedulerError
          else validate_termination rest
      | some _ => validate_termination rest

/-- The default termination conditions installed by _validate_termination
when run was called without a termination_conds argument: AllHaveRun for
every time scale. -/
def default_termination (N : Type) : List (TimeScale × Option (Cond N)) :=
  TimeScale.allScales.map (fun ts => (ts, some Cond.allHaveRun))

/-- The termination_conds dictionary actually stored by run: the supplied
dictionary, or the AllHaveRun default when None was passed. -/
def resolve_termination (spec : Option (List (TimeScale × Option (Cond N)))) :
    List (TimeScale × Option (Cond N)) :=
  match spec with
  | none => default_termination N
  | some d => d

/-- Scheduler.run.  The spec argument is the termination_conds parameter:
none embeds passing None (defaulted to AllHaveRun for every scale), some d
embeds passing the dictionary d, which may omit keys or map them to None.
The result is the list of yielded time steps, each paired with the state at
the moment of the yield, together with the final state (none when the fuel
ran out before the trial loop terminated).  In the source the per-run
resets (counts_useable, the TRIAL row of counts_total, the TRIAL row of
times, lines 443 to 445) are executed before the dictionary lookup of the
TRIAL termination condition; since the error outcomes carry no state, the
resets are applied here inside the success branch, which is observationally
identical. -/
def run (cfg : Config N) (spec : Option (List (TimeScale × Option (Cond N))))
    (fuel : Nat) (s : SchedState N) :
    Except RunErr (List (List N × SchedState N) × Option (SchedState N)) :=
  match validate_termination (resolve_termination (N := N) spec) with
  | Except.error e => Except.error e
  | Except.ok _ =>
    match lookupTC (resolve_termination (N := N) spec) TimeScale.TRIAL with
    | none => Except.error RunErr.keyError
    | some none => Except.error RunErr.attributeError
    | some (some tCond) =>
        Except.ok (trial_loop cfg tCond fuel
          (reset_time
            { s with counts_useable := fun _ _ => 0,
                     counts_total := reset_count s.counts_total TimeScale.TRIAL }
            TimeScale.TRIAL))

/-- The sequence of time steps yielded by a run (empty on an error). -/
def runYields (r : Except RunErr (List (List N × SchedState N) × Option (SchedState N))) :
    List (List N) :=
  match r with
  | Except.ok (tr, _) => tr.map Prod.fst
  | Except.error _ => []

/-- The trace of a run: yielded time steps paired with state snapshots. -/
def runTrace (r : Except RunErr (List (List N × SchedState N) × Option (SchedState N))) :
    List (List N × SchedState N) :=
  match r with
  | Except.ok (tr, _) => tr
  | Except.error _ => []

/-- Whether a run completed: it raised no error and its trial loop
terminated within the fuel, so the generator was drained. -/
def runCompleted (r : Except RunErr (List (List N × SchedState N) × Option (SchedState N))) :
    Bool :=
  match r with
  | Except.ok (_, some _) => true
  | _ => false

/-- Number of occurrences of a node in a list. -/
def countOcc (n : N) : List N → Nat
  | [] => 0
  | k :: rest => (if k = n then 1 else 0) + countOcc n rest

/-- Number of firings of a node across a trace: the sum over the yielded
time steps of the occurrences of the node (each yielded set is
duplicate-free, so this is the number of yields containing the node). -/
def fire_count (n : N) (tr : List (List N × SchedState N)) : Nat :=
  (tr.map (fun p => countOcc n p.1)).sum

/-- The three mechanisms of the documented linear-chain example (Scheduler
docstring lines 152 to 176). -/
inductive PNode where
  | A
  | B
  | C
deriving DecidableEq, Fintype

/-- The zero-initialized state of a freshly constructed Scheduler
(_init_counts with an empty execution_list). -/
def initState : SchedState PNode :=
  { times := fun _ _ => 0
    counts_total := fun _ _ => 0
    counts_useable := fun _ _ => 0
    execution_list := [] }

/-- The linear chain A to B to C: consideration queue of singleton layers,
B conditioned on EveryNCalls(A, 2), C on EveryNCalls(B, 3), A left without
a Condition (defaulted to Always). -/
def chainCfg : Config PNode :=
  { nodes := [PNode.A, PNode.B, PNode.C]
    consideration_queue := [[PNode.A], [PNode.B], [PNode.C]]
    conditions := fun n =>
      match n with
      | PNode.A => none
      | PNode.B => some (Cond.everyNCalls PNode.A 2)
      | PNode.C => some (Cond.everyNCalls PNode.B 3) }

/-- A two-node configuration that stalls after its first pass: A fires only
at pass 0, B waits for two firings of A that never accumulate. -/
def stallCfg : Config PNode :=
  { nodes := [PNode.A, PNode.B]
    consideration_queue := [[PNode.A], [PNode.B]]
    conditions := fun n =>
      match n with
      | PNode.A => some (Cond.atPass 0)
      | PNode.B => some (Cond.everyNCalls PNode.A 2)
      | PNode.C => none }

/-- The single error of the consideration-queue builder: the dependency
graph is not acyclic. -/
inductive TopoErr where
  | notAcyclic
deriving DecidableEq

/-- Modelled from the spec: the external toposort routine consumed by
Scheduler._init_consideration_queue_from_system (imported from the toposort
module, which is not among the sources).  Spec section 4.4: Kahn-style
layering, repeatedly peeling off the set of nodes whose predecessors are
all already placed; a round in which no node can be peeled off while some
remain unplaced is a cycle and fails with the graph-is-not-acyclic error.
The fuel argument only bounds the recursion; with fuel larger than the node
count a terminal branch is always reached before the fuel runs out. -/
def kahn_layers (deps : N → List N) (nodes : List N) :
    Nat → List N → Except TopoErr (List (List N))
  | 0, _ => Except.error TopoErr.notAcyclic
  | fuel + 1, placed =>
      if (nodes.filter (fun k => !decide (k ∈ placed))).isEmpty then Except.ok []
      else
        if ((nodes.filter (fun k => !decide (k ∈ placed))).filter
            (fun k => (deps k).all (fun d => decide (d ∈ placed)))).isEmpty then
          Except.error TopoErr.notAcyclic
        else
          match kahn_layers deps nodes fuel
              (placed ++ (nodes.filter (fun k => !decide (k ∈ placed))).filter
                (fun k => (deps k).all (fun d => decide (d ∈ placed)))) with
          | Except.error e => Except.error e
          | Except.ok rest =>
              Except.ok ((nodes.filter (fun k => !decide (k ∈ placed))).filter
                (fun k => (deps k).all (fun d => decide (d ∈ placed))) :: rest)

/-- The consideration queue built from a dependency graph
(Scheduler._init_consideration_queue_from_system): the layered topological
sort of the graph mapping each node to the list of its predecessors. -/
def toposort (deps : N → List N) (nodes : List N) : Except TopoErr (List (List N)) :=
  kahn_layers deps nodes (nodes.length + 1) []

/-- The dependency function of the linear chain: B depends on A, C on B. -/
def chainDeps : PNode → List PNode
  | PNode.A => []
  | PNode.B => [PNode.A]
  | PNode.C => [PNode.B]

/-- A topological rank witnessing that the chain graph is acyclic. -/
def chainRank : PNode → Nat
  | PNode.A => 0
  | PNode.B => 1
  | PNode.C => 2

/-- The cyclic two-node graph of the spec: A depends on B and B depends
on A. -/
def cycleDeps : PNode → List PNode
  | PNode.A => [PNode.B]
  | PNode.B => [PNode.A]
  | PNode.C => []

/-- The drained run of the documented linear-chain example. -/
def chainRun1 : Except RunErr (List (List PNode × SchedState PNode) × Option (SchedState PNode)) :=
  run chainCfg none 10 initState

/-- The scheduler state after the first complete run of the chain
example. -/
def chainState1 : Option (SchedState PNode) :=
  match chainRun1 with
  | Except.ok (_, some s) => some s
  | _ => none

/-- A second complete run of the chain example on the same scheduler. -/
def chainRun2 : Except RunErr (List (List PNode × SchedState PNode) × Option (SchedState PNode)) :=
  match chainState1 with
  | some s1 => run chainCfg none 10 s1
  | none => Except.error RunErr.keyError

/-- The yields of the stalling two-node run, drained for two passes. -/
def stallYields : List (List PNode) :=
  runYields (run stallCfg none 2 initState)

/-- counts_useable as observed at the first yield of the chain run (the
suspension point immediately after the firing update of the yielded
node). -/
def cuAfterFirstFire (a b : PNode) : Option Nat :=
  ((runTrace chainRun1).head?).map (fun p => p.2.counts_useable a b)

/-- The diagonal Time Registry entry times[S][S] as observed at the i-th
yield of the chain run. -/
def timesSelfAt (i : Nat) (S : TimeScale) : Option Nat :=
  ((runTrace chainRun1).get? i).map (fun p => p.2.times S S)

/-- The layering invariant of the consideration-queue builder: every node
of a layer is new (not yet placed) and all of its predecessors were placed
before the layer. -/
def Layered (deps : N → List N) : List (List N) → List N → Prop
  | [], _ => True
  | l :: rest, placed =>
      (∀ v ∈ l, ¬ v ∈ placed ∧ ∀ u ∈ deps v, u ∈ placed) ∧ Layered deps rest (placed ++ l)

/-- C3: for the linear chain A to B to C with EveryNCalls(A, 2) on B,
EveryNCalls(B, 3) on C, A defaulted to Always and the default AllHaveRun
TRIAL termination, draining the run generator yields exactly the singleton
time steps A, A, B, A, A, B, A, A, B, C, and the generator completes. -/
theorem chain_example_firing_sequence :
    runYields (run chainCfg none 10 initState) =
      [[PNode.A], [PNode.A], [PNode.B], [PNode.A], [PNode.A], [PNode.B],
       [PNode.A], [PNode.A], [PNode.B], [PNode.C]] ∧
    runCompleted (run chainCfg none 10 initState) = true := by
  decide

/-- C1 (counterexample): in the chain run the first yielded time step is
the firing of A from the all-zero counts_useable state, and immediately
after that firing update it is false that counts_useable[A][*] is 0 for
every node and that counts_useable[*][A] increased by exactly 1 (from 0 to
1) for every other node: the code does the opposite, counts_useable[A][B]
is 1 and counts_useable[B][A] is 0. -/
theorem fire_reset_direction_counterexample :
    (runYields chainRun1).head? = some [PNode.A] ∧
    ¬ ((∀ b, cuAfterFirstFire PNode.A b = some 0) ∧
       (∀ a, a ≠ PNode.A → cuAfterFirstFire a PNode.A = some 1)) := by
  refine ⟨by decide, ?_⟩
  intro h
  exact absurd (h.1 PNode.B) (by decide)

/-- C1 (amended): when a node k fires, the firing update sets
counts_useable[a][k] to 0 for every other node a, sets
counts_useable[k][k] to 1, increments counts_useable[k][b] by exactly 1
for every other node b, and leaves every entry not involving k
unchanged. -/
theorem fire_update_counts_useable (s : SchedState N) (k a b : N)
    (ha : a ≠ k) (hb : b ≠ k) :
    (fire_update s k).counts_useable a k = 0 ∧
    (fire_update s k).counts_useable k k = 1 ∧
    (fire_update s k).counts_useable k b = s.counts_useable k b + 1 ∧
    (fire_update s k).counts_useable a b = s.counts_useable a b := by
  simp [fire_update, ha, hb]

/-- Witness for the amended C1 at a concrete firing. -/
theorem fire_update_counts_useable_witness :
    (fire_update initState PNode.A).counts_useable PNode.B PNode.A = 0 ∧
    (fire_update initState PNode.A).counts_useable PNode.A PNode.A = 1 ∧
    (fire_update initState PNode.A).counts_useable PNode.A PNode.C =
      initState.counts_useable PNode.A PNode.C + 1 ∧
    (fire_update initState PNode.A).counts_useable PNode.B PNode.C =
      initState.counts_useable PNode.B PNode.C :=
  fire_update_counts_useable initState PNode.A PNode.B PNode.C (by decide) (by decide)

/-- C2 (counterexample): in the stalling two-node run, A fires in pass 0
and the guard still appends and yields the empty time step at the end of
pass 1, because execution_list_has_changed is reset at the start of every
pass; so it is false that an empty set is yielded only when no node has
fired during the entire run. -/
theorem stall_guard_counterexample :
    stallYields = [[PNode.A], []] ∧
    ¬ (∀ i j, i < j → stallYields.get? j = some [] → stallYields.get? i = some []) := by
  refine ⟨by decide, ?_⟩
  intro h
  exact absurd (h 0 1 (by decide) (by decide)) (by decide)

/-- C5 (counterexample): at the second yield of the chain run the Time
Registry entry times[TIME_STEP][TIME_STEP] equals 1, not 0: _increment_time
increments times[ts][scale] for every ts including ts = scale, and the
TIME_STEP row is never reset during a run. -/
theorem times_self_counterexample :
    ¬ (∀ i S v, timesSelfAt i S = some v → v = 0) := by
  intro h
  exact absurd (h 1 TimeScale.TIME_STEP 1 (by decide)) (by decide)

/-- C5 (amended): a scale does count its own ticks: _increment_time(S)
increments times[S][S] like every other row, so times[S][S] equals the
number of S ticks since the row S was last reset; in particular at the
second yield of the chain run times[TIME_STEP][TIME_STEP] is already 1. -/
theorem increment_time_counts_own_scale :
    (∀ (s : SchedState PNode) (scale : TimeScale),
        (increment_time s scale).times scale scale = s.times scale scale + 1) ∧
    timesSelfAt 1 TimeScale.TIME_STEP = some 1 := by
  constructor
  · intro s scale
    simp [increment_time]
  · decide

/-- If a supplied termination_conds dictionary maps TRIAL to None,
_validate_termination raises SchedulerError. -/
theorem validate_termination_error_of_mem_trial_none
    (d : List (TimeScale × Option (Cond N)))
    (h : (TimeScale.TRIAL, (none : Option (Cond N))) ∈ d) :
    validate_termination d = (Except.error RunErr.schedulerError : Except RunErr Unit) := by
  induction d with
  | nil => cases h
  | cons hd tl ih =>
      obtain ⟨ts, c⟩ := hd
      rcases List.mem_cons.mp h with heq | hmem
      · cases heq
        simp [validate_termination]
      · cases c with
        | none =>
            by_cases hts : ts = TimeScale.TRIAL
            · simp [validate_termination, hts]
            · simp [validate_termination, hts, ih hmem]
        | some c0 => simp [validate_termination, ih hmem]

/-- C8: a partially specified termination_conds mapping that leaves the
TRIAL scale unresolved (maps it to None) makes run fail with the
SchedulerError raised by _validate_termination at the start of run, before
any time step is computed (no time step is ever yielded). -/
theorem trial_none_termination_error (cfg : Config N) (s : SchedState N)
    (fuel : Nat) (d : List (TimeScale × Option (Cond N)))
    (h : (TimeScale.TRIAL, (none : Option (Cond N))) ∈ d) :
    run cfg (some d) fuel s = Except.error RunErr.schedulerError := by
  have hv := validate_termination_error_of_mem_trial_none d h
  simp [run, resolve_termination, hv]

/-- Witness for C8 on the chain scheduler with the explicit partial
mapping that sends TRIAL to None. -/
theorem trial_none_termination_error_witness :
    run chainCfg (some [(TimeScale.TRIAL, (none : Option (Cond PNode)))]) 10 initState =
      Except.error RunErr.schedulerError :=
  trial_none_termination_error chainCfg initState 10 _
    (List.mem_cons_self _ _)

/-- If the TRIAL key is absent from the termination_conds dictionary, the
validation loop accepts the dictionary. -/
theorem validate_termination_ok_of_lookup_none
    (d : List (TimeScale × Option (Cond N)))
    (h : lookupTC d TimeScale.TRIAL = none) :
    validate_termination d = (Except.ok () : Except RunErr Unit) := by
  induction d with
  | nil => rfl
  | cons hd tl ih =>
      obtain ⟨ts, c⟩ := hd
      by_cases hts : TimeScale.TRIAL = ts
      · simp [lookupTC, hts] at h
      · have h' : lookupTC tl TimeScale.TRIAL = none := by
          simpa [lookupTC, hts] using h
        cases c with
        | none =>
            have : ts ≠ TimeScale.TRIAL := fun he => hts he.symm
            simp [validate_termination, this, ih h']
        | some c0 => simp [validate_termination, ih h']

/-- C10: if the termination_conds mapping omits the TRIAL key entirely,
the validation loop raises no SchedulerError, and run instead fails with
the plain missing-key lookup error when the TRIAL termination condition is
first read, before any time step is yielded. -/
theorem missing_trial_key_lookup_error (cfg : Config N) (s : SchedState N)
    (fuel : Nat) (d : List (TimeScale × Option (Cond N)))
    (h : lookupTC d TimeScale.TRIAL = none) :
    validate_termination d = (Except.ok () : Except RunErr Unit) ∧
    run cfg (some d) fuel s = Except.error RunErr.keyError := by
  have hv := validate_termination_ok_of_lookup_none d h
  exact ⟨hv, by simp [run, resolve_termination, hv, h]⟩

/-- Witness for C10: the empty dictionary omits TRIAL. -/
theorem missing_trial_key_lookup_error_witness :
    validate_termination ([] : List (TimeScale × Option (Cond PNode))) =
      (Except.ok () : Except RunErr Unit) ∧
    run chainCfg (some []) 10 initState = Except.error RunErr.keyError :=
  missing_trial_key_lookup_error chainCfg initState 10 [] rfl

/-- If every member of a non-empty node collection C has a predecessor in
C (as any dependency cycle does), no member of C is ever peeled off, so the
layering routine fails with the graph-is-not-acyclic error. -/
theorem kahn_cycle_stuck (deps : N → List N) (nodes : List N) (C : List N)
    (hne : C ≠ []) (hsub : ∀ c ∈ C, c ∈ nodes)
    (hcyc : ∀ c ∈ C, ∃ d ∈ deps c, d ∈ C) :
    ∀ fuel placed, (∀ c ∈ C, ¬ c ∈ placed) →
      kahn_layers deps nodes fuel placed = Except.error TopoErr.notAcyclic := by
  intro fuel
  induction fuel with
  | zero => intro placed _; rfl
  | succ f ih =>
      intro placed hp
      obtain ⟨c0, hc0⟩ := List.exists_mem_of_ne_nil C hne
      have hc0rem : c0 ∈ nodes.filter (fun k => !decide (k ∈ placed)) := by
        simp [List.mem_filter, hsub c0 hc0, hp c0 hc0]
      have hrem : (nodes.filter (fun k => !decide (k ∈ placed))).isEmpty = false := by
        cases hrm : nodes.filter (fun k => !decide (k ∈ placed)) with
        | nil => rw [hrm] at hc0rem; cases hc0rem
        | cons a l => simp [hrm]
      have hnotcur : ∀ c ∈ C,
          ¬ c ∈ (nodes.filter (fun k => !decide (k ∈ placed))).filter
              (fun k => (deps k).all (fun d => decide (d ∈ placed))) := by
        intro c hc hmem
        obtain ⟨d, hd, hdC⟩ := hcyc c hc
        have hall := (List.mem_filter.mp hmem).2
        have := (List.all_eq_true.mp hall) d hd
        exact hp d hdC (of_decide_eq_true this)
      have hp' : ∀ c ∈ C, ¬ c ∈ placed ++
          (nodes.filter (fun k => !decide (k ∈ placed))).filter
            (fun k => (deps k).all (fun d => decide (d ∈ placed))) := by
        intro c hc hmem
        rcases List.mem_append.mp hmem with hmem | hmem
        · exact hp c hc hmem
        · exact hnotcur c hc hmem
      show kahn_layers deps nodes (f + 1) placed = Except.error TopoErr.notAcyclic
      rw [kahn_layers]
      simp only [hrem, if_false, Bool.false_eq_true]
      split
      · rfl
      · rw [ih _ hp']

/-- C7: if the dependency graph supplied at construction contains a cycle,
the consideration-queue builder fails with the graph-is-not-acyclic error
(it returns the error value and in particular never returns a partial
queue). -/
theorem cyclic_graph_construction_error (deps : N → List N) (nodes : List N)
    (C : List N) (hne : C ≠ []) (hsub : ∀ c ∈ C, c ∈ nodes)
    (hcyc : ∀ c ∈ C, ∃ d ∈ deps c, d ∈ C) :
    toposort deps nodes = Except.error TopoErr.notAcyclic :=
  kahn_cycle_stuck deps nodes C hne hsub hcyc (nodes.length + 1) []
    (fun c _ h => (List.not_mem_nil c) h)

/-- Witness for C7 on the two-node cycle A depends on B depends on A. -/
theorem cyclic_graph_construction_error_witness :
    toposort cycleDeps [PNode.A, PNode.B] = Except.error TopoErr.notAcyclic :=
  cyclic_graph_construction_error cycleDeps [PNode.A, PNode.B] [PNode.A, PNode.B]
    (by decide) (by decide) (by decide)

/-- countOcc distributes over append. -/
theorem countOcc_append (n : N) (l1 l2 : List N) :
    countOcc n (l1 ++ l2) = countOcc n l1 + countOcc n l2 := by
  induction l1 with
  | nil => simp [countOcc]
  | cons k rest ih => simp [countOcc, ih]; omega

/-- fire_count distributes over append. -/
theorem fire_count_append (n : N) (t1 t2 : List (List N × SchedState N)) :
    fire_count n (t1 ++ t2) = fire_count n t1 + fire_count n t2 := by
  simp [fire_count]

/-- The firing update leaves execution_list unchanged. -/
theorem fire_update_execution_list (s : SchedState N) (k : N) :
    (fire_update s k).execution_list = s.execution_list := rfl

/-- The firing update leaves the Time Registry unchanged. -/
theorem fire_update_times (s : SchedState N) (k : N) :
    (fire_update s k).times = s.times := rfl

/-- The firing update increments counts_total of the fired node at every
time scale and leaves other nodes untouched. -/
theorem fire_update_counts_total (s : SchedState N) (k : N) (ts : TimeScale) (n : N) :
    (fire_update s k).counts_total ts n =
      s.counts_total ts n + (if n = k then 1 else 0) := by
  simp only [fire_update]
  split <;> simp

/-- increment_time leaves counts_total unchanged. -/
theorem increment_time_counts_total (s : SchedState N) (scale : TimeScale) :
    (increment_time s scale).counts_total = s.counts_total := rfl

/-- increment_time leaves execution_list unchanged. -/
theorem increment_time_execution_list (s : SchedState N) (scale : TimeScale) :
    (increment_time s scale).execution_list = s.execution_list := rfl

/-- reset_time leaves counts_total unchanged. -/
theorem reset_time_counts_total (s : SchedState N) (scale : TimeScale) :
    (reset_time s scale).counts_total = s.counts_total := rfl

/-- reset_time leaves execution_list unchanged. -/
theorem reset_time_execution_list (s : SchedState N) (scale : TimeScale) :
    (reset_time s scale).execution_list = s.execution_list := rfl

/-- One scan of a consideration set appends some firing list d to the time
step, increments counts_total by the occurrences in d at every scale, and
leaves execution_list and the Time Registry untouched. -/
theorem scan_layer_spec (cfg : Config N) :
    ∀ (layer exec : List N) (s : SchedState N),
      ∃ d : List N,
        (scan_layer cfg layer exec s).1 = exec ++ d ∧
        (∀ ts n, (scan_layer cfg layer exec s).2.1.counts_total ts n =
          s.counts_total ts n + countOcc n d) ∧
        (scan_layer cfg layer exec s).2.1.execution_list = s.execution_list ∧
        (scan_layer cfg layer exec s).2.1.times = s.times := by
  intro layer
  induction layer with
  | nil =>
      intro exec s
      exact ⟨[], by simp [scan_layer, countOcc]⟩
  | cons k rest ih =>
      intro exec s
      by_cases hmem : k ∈ exec
      · simpa [scan_layer, hmem] using ih exec s
      · by_cases hsat : is_satisfied cfg s (some k) (condOf cfg k) = true
        · obtain ⟨d', h1, h2, h3, h4⟩ := ih (exec ++ [k]) (fire_update s k)
          refine ⟨k :: d', ?_, ?_, ?_, ?_⟩
          · simp only [scan_layer, if_neg hmem, if_pos hsat]
            rw [h1, List.append_assoc]
            rfl
          · intro ts n
            simp only [scan_layer, if_neg hmem, if_pos hsat]
            rw [h2 ts n, fire_update_counts_total]
            show _ = s.counts_total ts n + ((if k = n then 1 else 0) + countOcc n d')
            by_cases h : n = k
            · subst h; simp; omega
            · have h' : ¬ (k = n) := fun he => h he.symm
              simp [h, h']
          · simp only [scan_layer, if_neg hmem, if_pos hsat]
            rw [h3, fire_update_execution_list]
          · simp only [scan_layer, if_neg hmem, if_pos hsat]
            rw [h4, fire_update_times]
        · have hs : is_satisfied cfg s (some k) (condOf cfg k) = false :=
            Bool.not_eq_true _ ▸ hsat
          simpa [scan_layer, hmem, hs] using ih exec s

/-- The fixed-point iteration over a consideration set has the same
shape: it appends firings, accumulates counts_total, and leaves
execution_list and times untouched. -/
theorem fix_layer_spec (cfg : Config N) :
    ∀ (fuel : Nat) (layer exec : List N) (s : SchedState N),
      ∃ d : List N,
        (fix_layer cfg fuel layer exec s).1 = exec ++ d ∧
        (∀ ts n, (fix_layer cfg fuel layer exec s).2.counts_total ts n =
          s.counts_total ts n + countOcc n d) ∧
        (fix_layer cfg fuel layer exec s).2.execution_list = s.execution_list ∧
        (fix_layer cfg fuel layer exec s).2.times = s.times := by
  intro fuel
  induction fuel with
  | zero =>
      intro layer exec s
      exact ⟨[], by simp [fix_layer, countOcc]⟩
  | succ f ih =>
      intro layer exec s
      obtain ⟨d1, h1, h2, h3, h4⟩ := scan_layer_spec cfg layer exec s
      simp only [fix_layer]
      split
      · obtain ⟨d2, g1, g2, g3, g4⟩ :=
          ih layer (scan_layer cfg layer exec s).1 (scan_layer cfg layer exec s).2.1
        refine ⟨d1 ++ d2, ?_, ?_, ?_, ?_⟩
        · rw [g1, h1, List.append_assoc]
        · intro ts n
          rw [g2 ts n, h2 ts n, countOcc_append]
          omega
        · rw [g3, h3]
        · rw [g4, h4]
      · exact ⟨d1, h1, h2, h3, h4⟩

/-- Processing one consideration set appends the yielded time step (if
any) to execution_list, accumulates counts_total by the firings of the
yield at every scale, and only ever yields non-empty time steps. -/
theorem process_layer_spec (cfg : Config N) (layer : List N) (s : SchedState N) :
    (process_layer cfg layer s).2.execution_list =
      s.execution_list ++ (process_layer cfg layer s).1.map Prod.fst ∧
    (∀ ts n, (process_layer cfg layer s).2.counts_total ts n =
      s.counts_total ts n + fire_count n (process_layer cfg layer s).1) ∧
    (∀ p ∈ (process_layer cfg layer s).1, p.1 ≠ []) := by
  obtain ⟨d, h1, h2, h3, h4⟩ := fix_layer_spec cfg (layer.length + 1) layer [] s
  have hd : (fix_layer cfg (layer.length + 1) layer [] s).1 = d := by simpa using h1
  simp only [process_layer]
  split
  case isTrue he =>
    have hd0 : d = [] := by rw [← hd]; exact he
    refine ⟨by simpa using h3, ?_, by simp⟩
    intro ts n
    rw [h2 ts n, hd0]
    simp [fire_count, countOcc]
  case isFalse he =>
    refine ⟨?_, ?_, ?_⟩
    · show (increment_time _ TimeScale.TIME_STEP).execution_list = _
      rw [increment_time_execution_list]
      show (fix_layer cfg (layer.length + 1) layer [] s).2.execution_list ++ _ = _
      rw [h3]
      simp
    · intro ts n
      show (increment_time _ TimeScale.TIME_STEP).counts_total ts n = _
      rw [increment_time_counts_total]
      show (fix_layer cfg (layer.length + 1) layer [] s).2.counts_total ts n = _
      rw [h2 ts n, hd]
      simp [fire_count]
    · intro p hp
      rcases List.mem_singleton.mp hp with rfl
      exact he

/-- The layer loop of a pass: execution_list grows by exactly the yielded
time steps, counts_total accumulates the firings at every scale, every
yielded time step is non-empty, and the resulting
execution_list_has_changed flag is set iff it was set before or some time
step was yielded. -/
theorem pass_layers_spec (cfg : Config N) (tCond : Cond N) :
    ∀ (layers : List (List N)) (s : SchedState N) (ch : Bool),
      (pass_layers cfg tCond layers s ch).2.1.execution_list =
        s.execution_list ++ (pass_layers cfg tCond layers s ch).1.map Prod.fst ∧
      (∀ ts n, (pass_layers cfg tCond layers s ch).2.1.counts_total ts n =
        s.counts_total ts n + fire_count n (pass_layers cfg tCond layers s ch).1) ∧
      (∀ p ∈ (pass_layers cfg tCond layers s ch).1, p.1 ≠ []) ∧
      ((pass_layers cfg tCond layers s ch).2.2 = true ↔
        (ch = true ∨ (pass_layers cfg tCond layers s ch).1 ≠ [])) := by
  intro layers
  induction layers with
  | nil =>
      intro s ch
      refine ⟨by simp [pass_layers], ?_, by simp [pass_layers], by simp [pass_layers]⟩
      intro ts n
      simp [pass_layers, fire_count]
  | cons layer rest ih =>
      intro s ch
      by_cases hsat : is_satisfied cfg s none tCond = true
      · refine ⟨by simp [pass_layers, hsat], ?_, by simp [pass_layers, hsat],
          by simp [pass_layers, hsat]⟩
        intro ts n
        simp [pass_layers, hsat, fire_count]
      · have hsat' : is_satisfied cfg s none tCond = false := Bool.not_eq_true _ ▸ hsat
        obtain ⟨p1, p2, p3⟩ := process_layer_spec cfg layer s
        obtain ⟨q1, q2, q3, q4⟩ :=
          ih (process_layer cfg layer s).2 (ch || !(process_layer cfg layer s).1.isEmpty)
        refine ⟨?_, ?_, ?_, ?_⟩
        · simp only [pass_layers, hsat', Bool.false_eq_true, if_false]
          rw [q1, p1, List.map_append, List.append_assoc]
        · intro ts n
          simp only [pass_layers, hsat', Bool.false_eq_true, if_false]
          rw [q2 ts n, p2 ts n, fire_count_append]
          omega
        · intro p hp
          simp only [pass_layers, hsat', Bool.false_eq_true, if_false] at hp
          rcases List.mem_append.mp hp with h | h
          · exact p3 p h
          · exact q3 p h
        · simp only [pass_layers, hsat', Bool.false_eq_true, if_false]
          rw [q4]
          by_cases hpr : (process_layer cfg layer s).1 = []
          · simp [hpr]
          · obtain ⟨a, l, hal⟩ : ∃ a l, (process_layer cfg layer s).1 = a :: l := by
              cases hx : (process_layer cfg layer s).1 with
              | nil => exact absurd hx hpr
              | cons a l => exact ⟨a, l, rfl⟩
            simp [hal]

/-- One pass: execution_list grows by exactly the yielded time steps, and
counts_total at every scale other than PASS accumulates the firings of the
pass. -/
theorem run_pass_spec (cfg : Config N) (tCond : Cond N) (s : SchedState N) :
    (run_pass cfg tCond s).2.execution_list =
      s.execution_list ++ (run_pass cfg tCond s).1.map Prod.fst ∧
    (∀ ts n, ts ≠ TimeScale.PASS →
      (run_pass cfg tCond s).2.counts_total ts n =
        s.counts_total ts n + fire_count n (run_pass cfg tCond s).1) := by
  have hexec1 :
      (reset_time { s with counts_total := reset_count s.counts_total TimeScale.PASS }
        TimeScale.PASS).execution_list = s.execution_list := rfl
  have hcnt1 : ∀ ts n, ts ≠ TimeScale.PASS →
      (reset_time { s with counts_total := reset_count s.counts_total TimeScale.PASS }
        TimeScale.PASS).counts_total ts n = s.counts_total ts n := by
    intro ts n h
    simp [reset_time, reset_count, h]
  obtain ⟨q1, q2, _, _⟩ := pass_layers_spec cfg tCond cfg.consideration_queue
    (reset_time { s with counts_total := reset_count s.counts_total TimeScale.PASS }
      TimeScale.PASS) false
  simp only [run_pass]
  split
  case isTrue hfl =>
    constructor
    · rw [increment_time_execution_list, q1, hexec1]
    · intro ts n h
      rw [increment_time_counts_total, q2 ts n, hcnt1 ts n h]
  case isFalse hfl =>
    constructor
    · rw [increment_time_execution_list, increment_time_execution_list]
      show (pass_layers cfg tCond cfg.consideration_queue _ false).2.1.execution_list
          ++ [([] : List N)] = _
      rw [q1, hexec1, List.map_append, List.append_assoc]
      rfl
    · intro ts n h
      rw [increment_time_counts_total, increment_time_counts_total]
      show (pass_layers cfg tCond cfg.consideration_queue _ false).2.1.counts_total ts n = _
      rw [q2 ts n, hcnt1 ts n h, fire_count_append]
      simp [fire_count, countOcc]

/-- C2 (amended): within any single pass, the guard appends and yields the
empty time step iff no node fired during that pass
(execution_list_has_changed is reset at the start of every pass, so the
guard is per-pass, not per-run): the yields of a pass contain the empty
set iff they consist of exactly the one empty set. -/
theorem pass_empty_yield_iff_no_fire (cfg : Config N) (tCond : Cond N) (s : SchedState N) :
    (([] : List N) ∈ (run_pass cfg tCond s).1.map Prod.fst ↔
      (run_pass cfg tCond s).1.map Prod.fst = [[]]) := by
  obtain ⟨_, _, q3, q4⟩ := pass_layers_spec cfg tCond cfg.consideration_queue
    (reset_time { s with counts_total := reset_count s.counts_total TimeScale.PASS }
      TimeScale.PASS) false
  simp only [run_pass]
  split
  case isTrue hfl =>
    apply iff_of_false
    · intro hmem
      obtain ⟨p, hp, hp1⟩ := List.mem_map.mp hmem
      exact q3 p hp hp1
    · intro heq
      cases hx : (pass_layers cfg tCond cfg.consideration_queue _ false).1 with
      | nil => rw [hx] at heq; cases heq
      | cons p l =>
          rw [hx] at heq
          have hp1 : p.1 = [] := by
            have := congrArg List.head? heq
            simpa using this
          exact q3 p (hx ▸ List.mem_cons_self p l) hp1
  case isFalse hfl =>
    have hnil : (pass_layers cfg tCond cfg.consideration_queue
        (reset_time { s with counts_total := reset_count s.counts_total TimeScale.PASS }
          TimeScale.PASS) false).1 = [] := by
      by_contra hne
      have := q4.mpr (Or.inr hne)
      rw [this] at hfl
      exact hfl rfl
    rw [hnil]
    simp

/-- The trial loop, when it terminates within its fuel: execution_list
grows by exactly the yielded time steps and counts_total at every scale
other than PASS accumulates the firings of the whole trial. -/
theorem trial_loop_spec (cfg : Config N) (tCond : Cond N) :
    ∀ (fuel : Nat) (s : SchedState N) (tr : List (List N × SchedState N)) (s' : SchedState N),
      trial_loop cfg tCond fuel s = (tr, some s') →
      s'.execution_list = s.execution_list ++ tr.map Prod.fst ∧
      (∀ ts n, ts ≠ TimeScale.PASS →
        s'.counts_total ts n = s.counts_total ts n + fire_count n tr) := by
  intro fuel
  induction fuel with
  | zero =>
      intro s tr s' h
      simp [trial_loop] at h
  | succ f ih =>
      intro s tr s' h
      rw [trial_loop] at h
      split at h
      case isTrue hsat =>
        obtain ⟨h1, h2⟩ := Prod.mk.injEq .. |>.mp h
        obtain rfl : increment_time s TimeScale.TRIAL = s' := Option.some.inj h2
        subst h1
        refine ⟨by simp [increment_time_execution_list], ?_⟩
        intro ts n _
        simp [increment_time_counts_total, fire_count]
      case isFalse hsat =>
        obtain ⟨h1, h2⟩ := Prod.mk.injEq .. |>.mp h
        have hrec : trial_loop cfg tCond f (run_pass cfg tCond s).2 =
            ((trial_loop cfg tCond f (run_pass cfg tCond s).2).1, some s') := by
          rw [← h2]
        obtain ⟨t1, t2⟩ := ih (run_pass cfg tCond s).2
          (trial_loop cfg tCond f (run_pass cfg tCond s).2).1 s' hrec
        obtain ⟨r1, r2⟩ := run_pass_spec cfg tCond s
        subst h1
        constructor
        · rw [t1, r1, List.map_append, List.append_assoc]
        · intro ts n hts
          rw [t2 ts n hts, r2 ts n hts, fire_count_append]
          omega

/-- Master lemma for a completed call to run: execution_list grows by
exactly the yielded time steps; counts_total at the LIFE, RUN and
TIME_STEP scales (never reset by run) accumulates the firings of the run
on top of its previous value; counts_total at the TRIAL scale (reset at
the start of run) ends up equal to the firings of the run alone. -/
theorem run_spec (cfg : Config N) (spec : Option (List (TimeScale × Option (Cond N))))
    (fuel : Nat) (s : SchedState N) (tr : List (List N × SchedState N)) (s' : SchedState N)
    (h : run cfg spec fuel s = Except.ok (tr, some s')) :
    s'.execution_list = s.execution_list ++ tr.map Prod.fst ∧
    (∀ n, s'.counts_total TimeScale.LIFE n =
      s.counts_total TimeScale.LIFE n + fire_count n tr) ∧
    (∀ n, s'.counts_total TimeScale.RUN n =
      s.counts_total TimeScale.RUN n + fire_count n tr) ∧
    (∀ n, s'.counts_total TimeScale.TIME_STEP n =
      s.counts_total TimeScale.TIME_STEP n + fire_count n tr) ∧
    (∀ n, s'.counts_total TimeScale.TRIAL n = fire_count n tr) := by
  unfold run at h
  split at h
  · exact absurd h (by simp)
  case h_2 u hv =>
    split at h
    · exact absurd h (by simp)
    · exact absurd h (by simp)
    case h_3 tCond hlk =>
      have htl : trial_loop cfg tCond fuel
          (reset_time
            { s with counts_useable := fun _ _ => 0,
                     counts_total := reset_count s.counts_total TimeScale.TRIAL }
            TimeScale.TRIAL) = (tr, some s') := by
        exact Except.ok.inj h
      obtain ⟨t1, t2⟩ := trial_loop_spec cfg tCond fuel _ tr s' htl
      have hs2exec :
          (reset_time
            { s with counts_useable := fun _ _ => 0,
                     counts_total := reset_count s.counts_total TimeScale.TRIAL }
            TimeScale.TRIAL).execution_list = s.execution_list := rfl
      have hs2cnt : ∀ ts n, ts ≠ TimeScale.TRIAL →
          (reset_time
            { s with counts_useable := fun _ _ => 0,
                     counts_total := reset_count s.counts_total TimeScale.TRIAL }
            TimeScale.TRIAL).counts_total ts n = s.counts_total ts n := by
        intro ts n hts
        simp [reset_time, reset_count, hts]
      have hs2trial : ∀ n,
          (reset_time
            { s with counts_useable := fun _ _ => 0,
                     counts_total := reset_count s.counts_total TimeScale.TRIAL }
            TimeScale.TRIAL).counts_total TimeScale.TRIAL n = 0 := by
        intro n
        simp [reset_time, reset_count]
      refine ⟨by rw [t1, hs2exec], ?_, ?_, ?_, ?_⟩
      · intro n
        rw [t2 TimeScale.LIFE n (by simp), hs2cnt TimeScale.LIFE n (by simp)]
      · intro n
        rw [t2 TimeScale.RUN n (by simp), hs2cnt TimeScale.RUN n (by simp)]
      · intro n
        rw [t2 TimeScale.TIME_STEP n (by simp), hs2cnt TimeScale.TIME_STEP n (by simp)]
      · intro n
        rw [t2 TimeScale.TRIAL n (by simp), hs2trial n]
        omega

/-- C4: for a Scheduler run to completion from its freshly constructed
state (execution_list empty, Scheduler.__init__ line 303), execution_list
at generator completion equals exactly the concatenation, in yield order,
of all time steps yielded by the generator. -/
theorem execution_list_is_concatenation_of_yields (cfg : Config N)
    (spec : Option (List (TimeScale × Option (Cond N)))) (fuel : Nat)
    (s : SchedState N) (tr : List (List N × SchedState N)) (s' : SchedState N)
    (h0 : s.execution_list = [])
    (h : run cfg spec fuel s = Except.ok (tr, some s')) :
    s'.execution_list = tr.map Prod.fst := by
  have he := (run_spec cfg spec fuel s tr s' h).1
  rw [h0] at he
  simpa using he

/-- Witness for C4 on the drained chain run. -/
theorem execution_list_is_concatenation_of_yields_witness :
    ∃ tr s', run chainCfg none 10 initState = Except.ok (tr, some s') ∧
      s'.execution_list = tr.map Prod.fst := by
  have hc : runCompleted (run chainCfg none 10 initState) = true := by decide
  cases h : run chainCfg none 10 initState with
  | error e => rw [h] at hc; simp [runCompleted] at hc
  | ok val =>
      obtain ⟨tr, os⟩ := val
      cases os with
      | none => rw [h] at hc; simp [runCompleted] at hc
      | some s' =>
          exact ⟨tr, s', rfl,
            execution_list_is_concatenation_of_yields chainCfg none 10 initState tr s' rfl h⟩

/-- C9: across two successive complete calls to run on the same Scheduler
(started from its freshly constructed state), the first run's yielded time
steps remain a prefix of execution_list, counts_total at the LIFE, RUN and
TIME_STEP scales accumulates the firings of both runs (those rows are
never reset by run), and counts_total at the TRIAL scale holds only the
second run's firings (that row is reset at the start of each run). -/
theorem run_frame_and_accumulation (cfg : Config N)
    (spec1 spec2 : Option (List (TimeScale × Option (Cond N)))) (f1 f2 : Nat)
    (s s1 s2 : SchedState N) (tr1 tr2 : List (List N × SchedState N))
    (h0 : s.execution_list = [])
    (h1 : run cfg spec1 f1 s = Except.ok (tr1, some s1))
    (h2 : run cfg spec2 f2 s1 = Except.ok (tr2, some s2)) :
    (∃ rest, s2.execution_list = tr1.map Prod.fst ++ rest) ∧
    (∀ n, s2.counts_total TimeScale.LIFE n =
      s.counts_total TimeScale.LIFE n + fire_count n tr1 + fire_count n tr2) ∧
    (∀ n, s2.counts_total TimeScale.RUN n =
      s.counts_total TimeScale.RUN n + fire_count n tr1 + fire_count n tr2) ∧
    (∀ n, s2.counts_total TimeScale.TIME_STEP n =
      s.counts_total TimeScale.TIME_STEP n + fire_count n tr1 + fire_count n tr2) ∧
    (∀ n, s2.counts_total TimeScale.TRIAL n = fire_count n tr2) := by
  obtain ⟨a1, b1, c1, d1, e1⟩ := run_spec cfg spec1 f1 s tr1 s1 h1
  obtain ⟨a2, b2, c2, d2, e2⟩ := run_spec cfg spec2 f2 s1 tr2 s2 h2
  refine ⟨⟨tr2.map Prod.fst, ?_⟩, ?_, ?_, ?_, e2⟩
  · rw [a2, a1, h0]
    simp
  · intro n
    rw [b2 n, b1 n]
  · intro n
    rw [c2 n, c1 n]
  · intro n
    rw [d2 n, d1 n]

/-- Witness for C9: two successive complete runs of the chain example. -/
theorem run_frame_and_accumulation_witness :
    ∃ s1 s2 tr1 tr2,
      run chainCfg none 10 initState = Except.ok (tr1, some s1) ∧
      run chainCfg none 10 s1 = Except.ok (tr2, some s2) ∧
      (∃ rest, s2.execution_list = tr1.map Prod.fst ++ rest) ∧
      (∀ n, s2.counts_total TimeScale.LIFE n =
        initState.counts_total TimeScale.LIFE n + fire_count n tr1 + fire_count n tr2) := by
  have hc1 : runCompleted chainRun1 = true := by decide
  have hc2 : runCompleted chainRun2 = true := by decide
  cases h1 : chainRun1 with
  | error e => rw [h1] at hc1; simp [runCompleted] at hc1
  | ok val1 =>
      obtain ⟨tr1, os1⟩ := val1
      cases os1 with
      | none => rw [h1] at hc1; simp [runCompleted] at hc1
      | some s1 =>
          have h1' : run chainCfg none 10 initState = Except.ok (tr1, some s1) := h1
          have hr2 : chainRun2 = run chainCfg none 10 s1 := by
            unfold chainRun2 chainState1
            rw [h1]
          rw [hr2] at hc2
          cases h2 : run chainCfg none 10 s1 with
          | error e => rw [h2] at hc2; simp [runCompleted] at hc2
          | ok val2 =>
              obtain ⟨tr2, os2⟩ := val2
              cases os2 with
              | none => rw [h2] at hc2; simp [runCompleted] at hc2
              | some s2 =>
                  obtain ⟨hpre, hlife, _, _, _⟩ :=
                    run_frame_and_accumulation chainCfg none none 10 10
                      initState s1 s2 tr1 tr2 rfl h1' h2
                  exact ⟨s1, s2, tr1, tr2, h1', h2, hpre, hlife⟩

/-- A successful layering run satisfies the Layered invariant. -/
theorem kahn_layered (deps : N → List N) (nodes : List N) :
    ∀ (fuel : Nat) (placed : List N) (q : List (List N)),
      kahn_layers deps nodes fuel placed = Except.ok q → Layered deps q placed := by
  intro fuel
  induction fuel with
  | zero => intro placed q h; cases h
  | succ f ih =>
      intro placed q h
      rw [kahn_layers] at h
      split at h
      · obtain rfl : ([] : List (List N)) = q := Except.ok.inj h
        trivial
      · split at h
        · cases h
        · split at h
          · cases h
          case h_2 rest heq =>
            obtain rfl :
                (nodes.filter (fun k => !decide (k ∈ placed))).filter
                  (fun k => (deps k).all (fun d => decide (d ∈ placed))) :: rest = q :=
              Except.ok.inj h
            refine ⟨?_, ih (placed ++ _) rest heq⟩
            intro v hv
            have hvrem := (List.mem_filter.mp hv).1
            have hvall := (List.mem_filter.mp hv).2
            have hvnp : ¬ v ∈ placed := by
              have := (List.mem_filter.mp hvrem).2
              simpa using this
            refine ⟨hvnp, ?_⟩
            intro u hu
            have := List.all_eq_true.mp hvall u hu
            exact of_decide_eq_true this

/-- In a Layered queue, every node of a layer is new relative to placed,
and each of its predecessors is either in placed or in a strictly earlier
layer. -/
theorem layered_get_facts (deps : N → List N) :
    ∀ (q : List (List N)) (placed : List N), Layered deps q placed →
      ∀ j lj, q.get? j = some lj → ∀ v ∈ lj,
        (¬ v ∈ placed) ∧
        (∀ u ∈ deps v, u ∈ placed ∨ ∃ i li, i < j ∧ q.get? i = some li ∧ u ∈ li) := by
  intro q
  induction q with
  | nil => intro placed _ j lj hj; simp at hj
  | cons l rest ih =>
      intro placed hL j lj hj v hv
      obtain ⟨hhead, htail⟩ := hL
      cases j with
      | zero =>
          obtain rfl : l = lj := by simpa using hj
          exact ⟨(hhead v hv).1, fun u hu => Or.inl ((hhead v hv).2 u hu)⟩
      | succ j' =>
          have hj' : rest.get? j' = some lj := by simpa using hj
          obtain ⟨hnp, hdeps⟩ := ih (placed ++ l) htail j' lj hj' v hv
          constructor
          · intro hvp
            exact hnp (List.mem_append.mpr (Or.inl hvp))
          · intro u hu
            rcases hdeps u hu with hup | ⟨i, li, hi, hgi, hui⟩
            · rcases List.mem_append.mp hup with h | h
              · exact Or.inl h
              · exact Or.inr ⟨0, l, Nat.succ_pos j', by simp, h⟩
            · exact Or.inr ⟨i + 1, li, Nat.succ_lt_succ hi, by simpa using hgi, hui⟩

/-- In a Layered queue, no node occurs in two distinct layers. -/
theorem layered_disjoint (deps : N → List N) :
    ∀ (q : List (List N)) (placed : List N), Layered deps q placed →
      ∀ i j li lj u, i < j → q.get? i = some li → q.get? j = some lj →
        u ∈ li → u ∈ lj → False := by
  intro q
  induction q with
  | nil => intro placed _ i j li lj u _ hi _ _ _; simp at hi
  | cons l rest ih =>
      intro placed hL i j li lj u hij hi hj hui huj
      obtain ⟨hhead, htail⟩ := hL
      cases i with
      | zero =>
          have hli : l = li := by simpa using hi
          subst hli
          cases j with
          | zero => exact absurd hij (lt_irrefl 0)
          | succ j' =>
              have hj' : rest.get? j' = some lj := by simpa using hj
              have hnp := (layered_get_facts deps rest (placed ++ l) htail j' lj hj' u huj).1
              exact hnp (List.mem_append.mpr (Or.inr hui))
      | succ i' =>
          cases j with
          | zero => exact absurd hij (by omega)
          | succ j' =>
              exact ih (placed ++ l) htail i' j' li lj u (Nat.lt_of_succ_lt_succ hij)
                (by simpa using hi) (by simpa using hj) hui huj

/-- On a successful toposort, for every dependency edge the layer of the
predecessor comes strictly before the layer of the dependent node. -/
theorem toposort_edge_order (deps : N → List N) (nodes : List N) (q : List (List N))
    (hq : toposort deps nodes = Except.ok q) (i j : Nat) (li lj : List N) (u v : N)
    (hi : q.get? i = some li) (hj : q.get? j = some lj)
    (hu : u ∈ li) (hv : v ∈ lj) (huv : u ∈ deps v) : i < j := by
  have hL := kahn_layered deps nodes (nodes.length + 1) [] q hq
  obtain ⟨_, hdeps⟩ := layered_get_facts deps q [] hL j lj hj v hv
  rcases hdeps u huv with hup | ⟨i', li', hi', hgi', hui'⟩
  · cases hup
  · by_cases hii : i = i'
    · exact hii ▸ hi'
    · rcases Nat.lt_or_ge i i' with hlt | hge
      · exact (layered_disjoint deps q [] hL i i' li li' u hlt hi hgi' hu hui').elim
      · have hlt : i' < i := Nat.lt_of_le_of_ne hge (fun he => hii he.symm)
        exact (layered_disjoint deps q [] hL i' i li' li u hlt hgi' hi hui' hu).elim

/-- On a successful toposort, the first layer contains exactly the nodes
with no incoming dependency edge. -/
theorem toposort_first_layer (deps : N → List N) (nodes : List N)
    (l0 : List N) (rest : List (List N))
    (hq : toposort deps nodes = Except.ok (l0 :: rest)) :
    ∀ k, k ∈ l0 ↔ (k ∈ nodes ∧ deps k = []) := by
  unfold toposort at hq
  rw [kahn_layers] at hq
  split at hq
  · cases Except.ok.inj hq
  · split at hq
    · cases hq
    · split at hq
      · cases hq
      case h_2 rest' heq =>
        have hl0 :
            (nodes.filter (fun k => !decide (k ∈ ([] : List N)))).filter
              (fun k => (deps k).all (fun d => decide (d ∈ ([] : List N)))) = l0 :=
          (List.cons.injEq .. ▸ Except.ok.inj hq).1
        intro k
        rw [← hl0]
        constructor
        · intro hk
          have hk1 := (List.mem_filter.mp hk).1
          have hk2 := (List.mem_filter.mp hk).2
          refine ⟨(List.mem_filter.mp hk1).1, ?_⟩
          cases hd : deps k with
          | nil => rfl
          | cons d l =>
              rw [hd] at hk2
              simp at hk2
        · intro ⟨hkn, hkd⟩
          refine List.mem_filter.mpr ⟨List.mem_filter.mpr ⟨hkn, by simp⟩, ?_⟩
          rw [hkd]
          simp

/-- Among the members of a non-empty list there is one of minimal rank. -/
theorem exists_rank_min (rank : N → Nat) :
    ∀ (l : List N), l ≠ [] → ∃ k ∈ l, ∀ x ∈ l, rank k ≤ rank x := by
  intro l
  induction l with
  | nil => intro h; exact absurd rfl h
  | cons a t ih =>
      intro _
      cases t with
      | nil =>
          exact ⟨a, List.mem_cons_self a [], by intro x hx; rcases List.mem_singleton.mp hx with rfl; exact le_refl _⟩
      | cons b t' =>
          obtain ⟨k, hk, hmin⟩ := ih (by simp)
          by_cases hak : rank a ≤ rank k
          · refine ⟨a, List.mem_cons_self a _, ?_⟩
            intro x hx
            rcases List.mem_cons.mp hx with rfl | hx
            · exact le_refl _
            · exact le_trans hak (hmin x hx)
          · refine ⟨k, List.mem_cons_of_mem a hk, ?_⟩
            intro x hx
            rcases List.mem_cons.mp hx with rfl | hx
            · exact le_of_lt (Nat.lt_of_not_le hak)
            · exact hmin x hx

/-- A pointwise-stronger filter keeps at least as many elements. -/
theorem filter_length_le_of_imp (p q : N → Bool) :
    ∀ (l : List N), (∀ k, q k = true → p k = true) →
      (l.filter q).length ≤ (l.filter p).length := by
  intro l himp
  induction l with
  | nil => simp
  | cons a t ih =>
      cases hq : q a with
      | true => simp [List.filter_cons, hq, himp a hq]; omega
      | false =>
          cases hp : p a with
          | true => simp [List.filter_cons, hq, hp]; omega
          | false => simpa [List.filter_cons, hq, hp] using ih

/-- A pointwise-stronger filter that loses a witness keeps strictly more
elements. -/
theorem filter_length_lt_of_imp (p q : N → Bool) :
    ∀ (l : List N), (∀ k, q k = true → p k = true) →
      ∀ k0, k0 ∈ l → p k0 = true → q k0 = false →
        (l.filter q).length < (l.filter p).length := by
  intro l himp
  induction l with
  | nil => intro k0 h; cases h
  | cons a t ih =>
      intro k0 hk0 hp0 hq0
      rcases List.mem_cons.mp hk0 with rfl | hk0t
      · rw [List.filter_cons, List.filter_cons, hq0, hp0]
        simp only [if_pos rfl]
        have := filter_length_le_of_imp p q t himp
        simp
        omega
      · cases hq : q a with
        | true =>
            rw [List.filter_cons, List.filter_cons, hq, himp a hq]
            simpa using ih k0 hk0t hp0 hq0
        | false =>
            cases hp : p a with
            | true =>
                rw [List.filter_cons, List.filter_cons, hq, hp]
                have := ih k0 hk0t hp0 hq0
                simp
                omega
            | false =>
                rw [List.filter_cons, List.filter_cons, hq, hp]
                simpa using ih k0 hk0t hp0 hq0

/-- If the dependency graph has a topological rank (the standard finite
characterization of acyclicity) and is closed over the node list, the
layering routine succeeds whenever its fuel exceeds the number of unplaced
nodes. -/
theorem kahn_succeeds (deps : N → List N) (nodes : List N) (rank : N → Nat)
    (hrank : ∀ u v, u ∈ deps v → rank u < rank v)
    (hclosed : ∀ v ∈ nodes, ∀ u ∈ deps v, u ∈ nodes) :
    ∀ (fuel : Nat) (placed : List N),
      (nodes.filter (fun k => !decide (k ∈ placed))).length < fuel →
      ∃ q, kahn_layers deps nodes fuel placed = Except.ok q := by
  intro fuel
  induction fuel with
  | zero => intro placed h; omega
  | succ f ih =>
      intro placed hlen
      by_cases hrem : (nodes.filter (fun k => !decide (k ∈ placed))).isEmpty
      · exact ⟨[], by rw [kahn_layers, if_pos hrem]⟩
      · have hremne : nodes.filter (fun k => !decide (k ∈ placed)) ≠ [] := by
          intro he
          rw [he] at hrem
          exact hrem rfl
        obtain ⟨k0, hk0mem, hk0min⟩ :=
          exists_rank_min rank (nodes.filter (fun k => !decide (k ∈ placed))) hremne
        have hk0nodes : k0 ∈ nodes := (List.mem_filter.mp hk0mem).1
        have hk0np : ¬ k0 ∈ placed := by
          have := (List.mem_filter.mp hk0mem).2
          simpa using this
        have hk0cur : k0 ∈ (nodes.filter (fun k => !decide (k ∈ placed))).filter
            (fun k => (deps k).all (fun d => decide (d ∈ placed))) := by
          refine List.mem_filter.mpr ⟨hk0mem, ?_⟩
          refine List.all_eq_true.mpr ?_
          intro d hd
          by_contra hdp
          have hdnp : ¬ d ∈ placed := fun hp => hdp (decide_eq_true hp)
          have hdrem : d ∈ nodes.filter (fun k => !decide (k ∈ placed)) :=
            List.mem_filter.mpr ⟨hclosed k0 hk0nodes d hd, by simpa using hdnp⟩
          exact absurd (hrank d k0 hd) (Nat.not_lt.mpr (hk0min d hdrem))
        have hcur : ¬ ((nodes.filter (fun k => !decide (k ∈ placed))).filter
            (fun k => (deps k).all (fun d => decide (d ∈ placed)))).isEmpty := by
          cases hc : (nodes.filter (fun k => !decide (k ∈ placed))).filter
              (fun k => (deps k).all (fun d => decide (d ∈ placed))) with
          | nil => rw [hc] at hk0cur; cases hk0cur
          | cons a l => simp [hc]
        have hlen' :
            (nodes.filter (fun k => !decide (k ∈ placed ++
              (nodes.filter (fun k => !decide (k ∈ placed))).filter
                (fun k => (deps k).all (fun d => decide (d ∈ placed)))))).length <
            (nodes.filter (fun k => !decide (k ∈ placed))).length := by
          apply filter_length_lt_of_imp _ _ nodes ?_ k0 hk0nodes ?_ ?_
          · intro k hk
            have hd := Bool.not_eq_true' .. |>.mp hk
            have hkq := of_decide_eq_false hd
            have hknp : ¬ k ∈ placed := fun hp => hkq (List.mem_append.mpr (Or.inl hp))
            show (!decide (k ∈ placed)) = true
            rw [decide_eq_false hknp]
            rfl
          · exact (List.mem_filter.mp hk0mem).2
          · have hmem : k0 ∈ placed ++ (nodes.filter (fun k => !decide (k ∈ placed))).filter
                (fun k => (deps k).all (fun d => decide (d ∈ placed))) :=
              List.mem_append.mpr (Or.inr hk0cur)
            show (!decide (k0 ∈ placed ++ (nodes.filter (fun k => !decide (k ∈ placed))).filter
                (fun k => (deps k).all (fun d => decide (d ∈ placed))))) = false
            rw [decide_eq_true hmem]
            rfl
        obtain ⟨q', hq'⟩ := ih (placed ++
          (nodes.filter (fun k => !decide (k ∈ placed))).filter
            (fun k => (deps k).all (fun d => decide (d ∈ placed))))
          (by omega)
        refine ⟨(nodes.filter (fun k => !decide (k ∈ placed))).filter
            (fun k => (deps k).all (fun d => decide (d ∈ placed))) :: q', ?_⟩
        rw [kahn_layers, if_neg hrem, if_neg hcur, hq']

/-- C6: for every dependency graph that is acyclic (witnessed by a
topological rank) and closed over its node list, the consideration queue
built by toposort exists, for every directed edge the index of the layer
containing the predecessor is strictly less than the index of the layer
containing the dependent node, and the first layer contains exactly the
nodes with no incoming dependency edge. -/
theorem consideration_queue_layering (deps : N → List N) (nodes : List N) (rank : N → Nat)
    (hrank : ∀ u v, u ∈ deps v → rank u < rank v)
    (hclosed : ∀ v ∈ nodes, ∀ u ∈ deps v, u ∈ nodes) :
    ∃ q, toposort deps nodes = Except.ok q ∧
      (∀ i j li lj u v, q.get? i = some li → q.get? j = some lj →
        u ∈ li → v ∈ lj → u ∈ deps v → i < j) ∧
      (∀ l0 rest, q = l0 :: rest → ∀ k, k ∈ l0 ↔ (k ∈ nodes ∧ deps k = [])) := by
  obtain ⟨q, hq⟩ := kahn_succeeds deps nodes rank hrank hclosed (nodes.length + 1) []
    (Nat.lt_succ_of_le (List.length_filter_le _ _))
  refine ⟨q, hq, ?_, ?_⟩
  · intro i j li lj u v hi hj hu hv huv
    exact toposort_edge_order deps nodes q hq i j li lj u v hi hj hu hv huv
  · intro l0 rest hrest k
    exact toposort_first_layer deps nodes l0 rest (hrest ▸ hq) k

/-- Witness for C6 on the chain graph, with the identity-style rank. -/
theorem consideration_queue_layering_witness :
    ∃ q, toposort chainDeps [PNode.A, PNode.B, PNode.C] = Except.ok q ∧
      (∀ i j li lj u v, q.get? i = some li → q.get? j = some lj →
        u ∈ li → v ∈ lj → u ∈ chainDeps v → i < j) ∧
      (∀ l0 rest, q = l0 :: rest →
        ∀ k, k ∈ l0 ↔ (k ∈ [PNode.A, PNode.B, PNode.C] ∧ chainDeps k = [])) :=
  consideration_queue_layering chainDeps [PNode.A, PNode.B, PNode.C] chainRank
    (by decide) (by decide)
